import Mathlib

/-!
Verification of the bashcodeshift core engine (Transformer + BashParser)
against its natural-language specification.

The canonical node model, traversal, filter matching, path-addressed
mutators and the source generator are shallowly embedded from
`src/core/transformer.ts`; the normalizer entry point is embedded from
`src/core/parser.ts`.  JavaScript in-place mutation of the tree held in
`this.rootAST` is rendered as a pure function from the old root to the
new root; each mutator's null-checks become the failure branches of the
path-resolution functions.
-/

namespace BashCodeshift

/-- Canonical AST node model, one constructor per `type` discriminator of
the TypeScript node interfaces (`src/types.ts`).  Optional TS fields that
the engine reads with a truthiness or `!== undefined` check are `Option`;
optional array fields that the engine only reads through
`x && x.length > 0` / `forEach` are plain lists (absent ≡ empty).
The `unknown` constructor models a record whose `type` tag is outside the
declared union — the TS `ASTNode` interface is open and the generator's
`switch` has a `default` branch for exactly this case. -/
inductive ASTNode where
  | program (body : List ASTNode)
  | command (name : String) (args : List String) (redirects : List ASTNode)
  | variableNode (name : String) (value : String) (exportFlag : Bool) (readonlyFlag : Bool)
  | conditional (condition : String) (consequent : List ASTNode) (alternate : Option (List ASTNode))
  | loop (kind : String) (loopVar : Option String) (condition : Option String) (body : List ASTNode)
  | functionDef (name : String) (parameters : List String) (body : List ASTNode)
  | pipeline (commands : List ASTNode) (negated : Bool)
  | redirect (operator : String) (target : String) (fd : Option Nat)
  | subshell (body : List ASTNode)
  | comment (value : String) (kind : String)
  | unknown (tag : String)
  deriving Repr

/-- One step of a captured path: `{ node, index }` as pushed by
`Transformer.walkAST`.  Path resolution (`getNodeAtPath`) reads only the
`index` component, exactly as in the source. -/
structure PathItem where
  node : ASTNode
  index : Nat
  deriving Repr

/-- The `type` discriminator string of a node. -/
def typeOf : ASTNode → String
  | .program _ => "Program"
  | .command .. => "Command"
  | .variableNode .. => "Variable"
  | .conditional .. => "Conditional"
  | .loop .. => "Loop"
  | .functionDef .. => "Function"
  | .pipeline .. => "Pipeline"
  | .redirect .. => "Redirect"
  | .subshell .. => "Subshell"
  | .comment .. => "Comment"
  | .unknown tag => tag

/-- The `body` field of a node, when the node kind has one.  Only
`Program`, `Loop`, `Function` and `Subshell` carry a `body` array;
`Conditional` stores `consequent`/`alternate`, `Command` stores
`redirects`, `Pipeline` stores `commands` — none of those is named
`body`, so `node.body && Array.isArray(node.body)` fails on them. -/
def getBody : ASTNode → Option (List ASTNode)
  | .program b => some b
  | .loop _ _ _ b => some b
  | .functionDef _ _ b => some b
  | .subshell b => some b
  | _ => none

/-- Replace the `body` field of a node that has one; identity otherwise.
This is the functional rendering of the in-place `parent.body = ...`
mutation performed through the reference returned by `getNodeAtPath`. -/
def setBody : ASTNode → List ASTNode → ASTNode
  | .program _, b => .program b
  | .loop k v c _, b => .loop k v c b
  | .functionDef n ps _, b => .functionDef n ps b
  | .subshell _, b => .subshell b
  | n, _ => n

mutual
/-- `Transformer.walkAST`: visit the node (pre-order), then recurse into
`node.body` when it is an array, accumulating `(node, path)` pairs in
visit order.  The callback side effect of the source is rendered as the
returned list. -/
def walkAST : ASTNode → List PathItem → List (ASTNode × List PathItem)
  | .program b, path => (.program b, path) :: walkASTList b path 0
  | .loop k v c b, path => (.loop k v c b, path) :: walkASTList b path 0
  | .functionDef n ps b, path => (.functionDef n ps b, path) :: walkASTList b path 0
  | .subshell b, path => (.subshell b, path) :: walkASTList b path 0
  | n, path => [(n, path)]

/-- The `node.body.forEach((child, index) => ...)` loop of `walkAST`,
threading the running child index. -/
def walkASTList : List ASTNode → List PathItem → Nat → List (ASTNode × List PathItem)
  | [], _, _ => []
  | c :: cs, path, i => walkAST c (path ++ [⟨c, i⟩]) ++ walkASTList cs path (i + 1)
end

/-- A JavaScript value as it can occur in a filter record or in a node
field read dynamically by `matchesFilter`.  `objV` stands for any object
or array value: under strict equality (`===`) two such values compare by
reference, and a filter literal is never reference-identical to a field
of the tree, so `objV` is never strictly equal to anything. -/
inductive JSValue where
  | undefV
  | nullV
  | boolV (b : Bool)
  | natV (n : Nat)
  | strV (s : String)
  | strListV (l : List String)
  | objV
  deriving Repr, DecidableEq

/-- JavaScript strict equality `===` restricted to the values above.
Primitives compare by value; arrays and objects (`strListV`, `objV`)
compare by reference, which is never `true` between a node field and a
filter value built by the caller. -/
def jsStrictEq : JSValue → JSValue → Bool
  | .undefV, .undefV => true
  | .nullV, .nullV => true
  | .boolV a, .boolV b => a == b
  | .natV a, .natV b => a == b
  | .strV a, .strV b => a == b
  | _, _ => false

/-- `Array.isArray` on a filter value. -/
def isArrayV : JSValue → Bool
  | .strListV _ => true
  | _ => false

/-- Dynamic field read `node[key]` for the canonical node kinds, per the
interfaces in `src/types.ts`.  Node-array valued fields read as `objV`;
absent optional fields read as `undef`; the normalizer stores `null` in
`alternate` when there is no else-branch. -/
def getField (node : ASTNode) (key : String) : JSValue :=
  match node with
  | .program _ =>
      if key == "type" then .strV "Program"
      else if key == "sourceType" then .strV "script"
      else if key == "body" then .objV
      else .undefV
  | .command nm args rs =>
      if key == "type" then .strV "Command"
      else if key == "name" then .strV nm
      else if key == "arguments" then .strListV args
      else if key == "redirects" then (if rs.isEmpty then .undefV else .objV)
      else .undefV
  | .variableNode nm vl ex ro =>
      if key == "type" then .strV "Variable"
      else if key == "name" then .strV nm
      else if key == "value" then .strV vl
      else if key == "export" then .boolV ex
      else if key == "readonly" then .boolV ro
      else .undefV
  | .conditional c _ alt =>
      if key == "type" then .strV "Conditional"
      else if key == "condition" then .strV c
      else if key == "consequent" then .objV
      else if key == "alternate" then (match alt with | some _ => .objV | none => .nullV)
      else .undefV
  | .loop k v c _ =>
      if key == "type" then .strV "Loop"
      else if key == "kind" then .strV k
      else if key == "variable" then (match v with | some s => .strV s | none => .undefV)
      else if key == "condition" then (match c with | some s => .strV s | none => .undefV)
      else if key == "body" then .objV
      else .undefV
  | .functionDef nm ps _ =>
      if key == "type" then .strV "Function"
      else if key == "name" then .strV nm
      else if key == "parameters" then .strListV ps
      else if key == "body" then .objV
      else .undefV
  | .pipeline _ ng =>
      if key == "type" then .strV "Pipeline"
      else if key == "commands" then .objV
      else if key == "negated" then .boolV ng
      else .undefV
  | .redirect op tg fd =>
      if key == "type" then .strV "Redirect"
      else if key == "operator" then .strV op
      else if key == "target" then .strV tg
      else if key == "fd" then (match fd with | some n => .natV n | none => .undefV)
      else .undefV
  | .subshell _ =>
      if key == "type" then .strV "Subshell"
      else if key == "body" then .objV
      else .undefV
  | .comment vl k =>
      if key == "type" then .strV "Comment"
      else if key == "value" then .strV vl
      else if key == "kind" then .strV k
      else .undefV
  | .unknown tag =>
      if key == "type" then .strV tag else .undefV

/-- `Transformer.arraysEqual`: both operands must be arrays, lengths must
agree, and every element must be `===` its counterpart (for argument
strings, value equality). -/
def arraysEqual : JSValue → JSValue → Bool
  | .strListV a, .strListV b =>
      a.length == b.length && (a.zip b).all fun p => p.1 == p.2
  | _, _ => false

/-- `Transformer.matchesFilter`: every key of the filter record must
hold, where the key `arguments` with an array value is compared by
`arraysEqual` against `node.arguments`, and any other key by strict
equality against `node[key]`. -/
def matchesFilter (node : ASTNode) (filter : List (String × JSValue)) : Bool :=
  filter.all fun kv =>
    if kv.1 == "arguments" && isArrayV kv.2 then
      arraysEqual (getField node "arguments") kv.2
    else
      jsStrictEq (getField node kv.1) kv.2

/-- `Transformer.findNodes`: walk the tree from `ast`, keep every visited
node whose `type` equals the requested one and which matches the filter,
in discovery order.  The handle's captured data is the `(value, path)`
pair; its mutation closures are modeled by the standalone mutator
functions below applied to that pair. -/
def findNodes (ast : ASTNode) (nodeType : String)
    (filter : List (String × JSValue)) : List (ASTNode × List PathItem) :=
  (walkAST ast []).filter fun np => typeOf np.1 == nodeType && matchesFilter np.1 filter

/-- `Transformer.getNodeAtPath`: starting at the root held in
`this.rootAST`, follow each step's `index` into the current node's
`body`; any step on a node without a `body` array, or whose index misses,
makes the resolution fail (`null`/`undefined` at the call site). -/
def getNodeAtPath (root : ASTNode) : List PathItem → Option ASTNode
  | [] => some root
  | p :: rest =>
    match getBody root with
    | some b =>
      match b[p.index]? with
      | some child => getNodeAtPath child rest
      | none => none
    | none => none

/-- Resolve `pp` from `root` as `getNodeAtPath` does and rewrite the
resolved node's `body` through `f`; if any step of the resolution fails,
or the resolved node has no `body` array, return the tree unchanged.
This is the pure form of `getNodeAtPath` + in-place mutation of
`parent.body` shared by the four mutators. -/
def modifyBodyAt (root : ASTNode) : List PathItem → (List ASTNode → List ASTNode) → ASTNode
  | [], f =>
    match getBody root with
    | some b => setBody root (f b)
    | none => root
  | p :: rest, f =>
    match getBody root with
    | some b =>
      match b[p.index]? with
      | some child => setBody root (b.set p.index (modifyBodyAt child rest f))
      | none => root
    | none => root

/-- `Transformer.replaceNode`: the two early returns (`path.length === 0`
and a missing last step) collapse to the `getLast? = none` case; otherwise
`parent.body[lastPath.index] = newNode`.  A JS assignment at an index at
or beyond the array length would grow the array; no path captured by
`walkAST` has such an index, and the model leaves the list unchanged
there. -/
def replaceNode (root : ASTNode) (path : List PathItem) (newNode : ASTNode) : ASTNode :=
  match path.getLast? with
  | none => root
  | some lastPath => modifyBodyAt root path.dropLast fun b => b.set lastPath.index newNode

/-- `Transformer.insertBeforeNode`: `parent.body.splice(i, 0, newNode)`;
`take`/`drop` clamp at the length exactly as `splice` does. -/
def insertBeforeNode (root : ASTNode) (path : List PathItem) (newNode : ASTNode) : ASTNode :=
  match path.getLast? with
  | none => root
  | some lastPath =>
      modifyBodyAt root path.dropLast fun b =>
        b.take lastPath.index ++ newNode :: b.drop lastPath.index

/-- `Transformer.insertAfterNode`: `parent.body.splice(i + 1, 0, newNode)`. -/
def insertAfterNode (root : ASTNode) (path : List PathItem) (newNode : ASTNode) : ASTNode :=
  match path.getLast? with
  | none => root
  | some lastPath =>
      modifyBodyAt root path.dropLast fun b =>
        b.take (lastPath.index + 1) ++ newNode :: b.drop (lastPath.index + 1)

/-- `Transformer.removeNode`: `parent.body.splice(i, 1)`. -/
def removeNode (root : ASTNode) (path : List PathItem) : ASTNode :=
  match path.getLast? with
  | none => root
  | some lastPath =>
      modifyBodyAt root path.dropLast fun b =>
        b.take lastPath.index ++ b.drop (lastPath.index + 1)

/-- `Transformer.pruneNode`: calls `removeNode`; the comment in the
source reserves room for extra cleanup but none is performed. -/
def pruneNode (root : ASTNode) (path : List PathItem) : ASTNode :=
  removeNode root path

/-- Options accepted by `toSource`/`astToSource` (`SourceOptions` in
`src/types.ts`); omitted fields fall back to `0` and the newline via
`options.indent || 0` and `options.lineEnding || '\n'`.  `indent` is read
into a local in the source but never used afterwards. -/
structure SourceOptions where
  indent : Option Nat := none
  lineEnding : Option String := none
  deriving Repr

/-- A JS template literal interpolates `undefined` as the text
`"undefined"`; used for the optional `variable`/`condition` fields of a
`Loop` node, which builder-produced nodes may leave unset. -/
def jsInterp : Option String → String
  | some s => s
  | none => "undefined"

mutual
/-- `Transformer.astToSource`: per-kind rendering switch.  Template
literals are written as explicit concatenations; `options.lineEnding ||
'\n'` is the default line ending. -/
def astToSource (node : ASTNode) (options : SourceOptions) : String :=
  let lineEnding := options.lineEnding.getD "\n"
  match node with
  | .program body =>
      String.intercalate lineEnding (astToSourceList body options)
  | .command name args redirects =>
      let cmd := name
      let cmd := if args.length > 0 then cmd ++ " " ++ String.intercalate " " args else cmd
      let cmd :=
        if redirects.length > 0 then
          cmd ++ " " ++ String.intercalate " " (astToSourceList redirects options)
        else cmd
      cmd
  | .variableNode name value exportFlag readonlyFlag =>
      let varStr := name
      let varStr := if exportFlag then "export " ++ varStr else varStr
      let varStr := if readonlyFlag then "readonly " ++ varStr else varStr
      varStr ++ "=" ++ value
  | .conditional condition consequent alternate =>
      let result := "if " ++ condition ++ "; then" ++ lineEnding
      let result := result ++
        String.intercalate lineEnding
          ((astToSourceList consequent options).map fun s => "  " ++ s)
      let result :=
        match alternate with
        | some alt =>
            result ++ lineEnding ++ "else" ++ lineEnding ++
              String.intercalate lineEnding
                ((astToSourceList alt options).map fun s => "  " ++ s)
        | none => result
      result ++ lineEnding ++ "fi"
  | .loop kind loopVar condition body =>
      if kind == "for" then
        "for " ++ jsInterp loopVar ++ "; do" ++ lineEnding ++ "  " ++
          String.intercalate (lineEnding ++ "  ") (astToSourceList body options) ++
          lineEnding ++ "done"
      else if kind == "while" then
        "while " ++ jsInterp condition ++ "; do" ++ lineEnding ++ "  " ++
          String.intercalate (lineEnding ++ "  ") (astToSourceList body options) ++
          lineEnding ++ "done"
      else ""
  | .functionDef name _ body =>
      "function " ++ name ++ "() \x7b" ++ lineEnding ++ "  " ++
        String.intercalate (lineEnding ++ "  ") (astToSourceList body options) ++
        lineEnding ++ "\x7d"
  | .pipeline commands negated =>
      let p := String.intercalate " | " (astToSourceList commands options)
      if negated then "!" ++ p else p
  | .redirect operator target fd =>
      (match fd with | some n => toString n | none => "") ++ operator ++ target
  | .subshell body =>
      "(" ++ String.intercalate "; " (astToSourceList body options) ++ ")"
  | .comment value kind =>
      if kind == "line" then "# " ++ value else "# " ++ value
  | .unknown _ => ""

/-- The `.map(child => this.astToSource(child, options))` loops of the
rendering switch. -/
def astToSourceList : List ASTNode → SourceOptions → List String
  | [], _ => []
  | n :: ns, options => astToSource n options :: astToSourceList ns options
end

mutual
/-- The pre-order visit sequence actually produced by `walkAST`: the node
itself, then the recursive visit of each `body` child in order.  Child
sequences stored under any other field name are not entered. -/
def preorderBody : ASTNode → List ASTNode
  | .program b => .program b :: preorderBodyList b
  | .loop k v c b => .loop k v c b :: preorderBodyList b
  | .functionDef n ps b => .functionDef n ps b :: preorderBodyList b
  | .subshell b => .subshell b :: preorderBodyList b
  | n => [n]

def preorderBodyList : List ASTNode → List ASTNode
  | [] => []
  | c :: cs => preorderBody c ++ preorderBodyList cs
end

/-- Modelled from the spec: the ordered child sequences the specification
says the query traversal follows — `body`, `consequent`/`alternate`,
`commands`, `redirects` (spec §3 invariant and §4.2).  Used only to
compare the spec's traversal against the implemented one. -/
def specModeledChildren : ASTNode → List ASTNode
  | .program b => b
  | .command _ _ rs => rs
  | .conditional _ cons alt => cons ++ alt.getD []
  | .loop _ _ _ b => b
  | .functionDef _ _ b => b
  | .pipeline cmds _ => cmds
  | .subshell b => b
  | _ => []

mutual
/-- Modelled from the spec: pre-order traversal over all modeled child
sequences of §3, the traversal the specification claims `find`
performs. -/
def specPreorder : ASTNode → List ASTNode
  | .program b => .program b :: specPreorderList b
  | .command nm args rs => .command nm args rs :: specPreorderList rs
  | .conditional c cons alt =>
      .conditional c cons alt ::
        (specPreorderList cons ++
          (match alt with | some l => specPreorderList l | none => []))
  | .loop k v c b => .loop k v c b :: specPreorderList b
  | .functionDef n ps b => .functionDef n ps b :: specPreorderList b
  | .pipeline cmds ng => .pipeline cmds ng :: specPreorderList cmds
  | .subshell b => .subshell b :: specPreorderList b
  | n => [n]

def specPreorderList : List ASTNode → List ASTNode
  | [] => []
  | c :: cs => specPreorder c ++ specPreorderList cs
end

/-- Parser collaborator configuration (`ParserOptions`); the `BashParser`
constructor fills all three flags with `true` before merging caller
overrides. -/
structure ParserOptions where
  locations : Bool := true
  comments : Bool := true
  ranges : Bool := true
  deriving Repr

/-- One raw node returned by the external `@isdk/bash-parser`
collaborator, restricted to the fields `BashParser.walkNode` and the
`convert*` helpers actually read.  The raw shape is an open record; the
fields the normalizer reads with `|| default` are `Option`s, child-array
fields are lists (absent ≡ empty, both skip the `forEach`).  `condition`
is carried as a string: this is the `typeof node === 'string'` branch of
`getNodeText`; the branch that extracts a substring of the source from a
location span is not modeled (no claim depends on it), and `loc` data is
dropped throughout. -/
inductive RawAST where
  | mk (type : String)
      (name value variableName condition operator target kindField : Option String)
      (exportFlag readonlyFlag negated : Bool)
      (fd : Option Nat)
      (args parameters : List String)
      (body redirects commands thenBranch : List RawAST)
      (elseBranch : Option (List RawAST))

/-- `BashParser.getNodeText` on a string-or-absent condition field:
a string is returned as-is, an absent value falls through to `''`. -/
def rawText : Option String → String
  | some s => s
  | none => ""

mutual
/-- `BashParser.walkNode`: dispatch on the raw `type` tag, converting
known tags to canonical nodes and flattening `Script` and unknown
wrappers into the surrounding body.  The `body.push(...)` accumulation is
rendered as the returned list of pushed nodes. -/
def walkNode : RawAST → List ASTNode
  | .mk ty nm vl vr cond _op _tg kf ex ro ng _fd args params body redirs cmds thenB elseB =>
    if ty == "Script" then rawList body
    else if ty == "Command" then
      [.command (nm.getD "") args (rawRedirectList redirs)]
    else if ty == "Assignment" then
      [.variableNode (nm.getD "") (vl.getD "") ex ro]
    else if ty == "If" then
      [.conditional (rawText cond) (rawList thenB)
        (match elseB with | some l => some (rawList l) | none => none)]
    else if ty == "For" then
      [.loop "for" (some (vr.getD "")) none (rawList body)]
    else if ty == "While" then
      [.loop "while" none (some (rawText cond)) (rawList body)]
    else if ty == "Function" then
      [.functionDef (nm.getD "") params (rawList body)]
    else if ty == "Pipeline" then
      [.pipeline (rawCommandList cmds) ng]
    else if ty == "Subshell" then
      [.subshell (rawList body)]
    else if ty == "Comment" then
      [.comment (vl.getD "") (kf.getD "line")]
    else
      -- default branch: descend into `body` children, if any
      rawList body

/-- `BashParser.extractBody` over an array, and the `forEach` loops of
the `Script`/default cases: convert each child and flatten. -/
def rawList : List RawAST → List ASTNode
  | [] => []
  | n :: ns => walkNode n ++ rawList ns

/-- `BashParser.convertRedirect` mapped over a raw `redirects` array. -/
def rawRedirectList : List RawAST → List ASTNode
  | [] => []
  | .mk _ _ _ _ _ op tg _ _ _ _ fd _ _ _ _ _ _ _ :: ns =>
      .redirect (op.getD "") (tg.getD "") fd :: rawRedirectList ns

/-- `BashParser.convertCommand` mapped over a raw `commands` array
(`convertPipeline`). -/
def rawCommandList : List RawAST → List ASTNode
  | [] => []
  | .mk _ nm _ _ _ _ _ _ _ _ _ _ args _ _ redirs _ _ _ :: ns =>
      .command (nm.getD "") args (rawRedirectList redirs) :: rawCommandList ns
end

/-- `BashParser.convertToJSCodeshiftAST`: a fresh `Program` node whose
body receives every node pushed by `walkNode` on the raw root. -/
def convertToJSCodeshiftAST (raw : RawAST) : ASTNode :=
  .program (walkNode raw)

/-- `BashParser.parse`: call the external parser with the configured
options and convert its output; any error raised inside the `try` block
is rethrown as a single error whose message wraps the original one, and
no tree is returned in that case.  The external collaborator is the
function argument `parseBash`; an exception it raises is its `.error`
outcome. -/
def parse (parseBash : String → ParserOptions → Except String RawAST)
    (options : ParserOptions) (source : String) : Except String ASTNode :=
  match parseBash source options with
  | .ok raw => .ok (convertToJSCodeshiftAST raw)
  | .error msg => .error ("Failed to parse bash source: " ++ msg)

/-- `Except.isOk` as a plain boolean, to state that no tree value is
returned to the caller. -/
def isOkResult : Except String ASTNode → Bool
  | .ok _ => true
  | .error _ => false

/-- A concrete two-command body used to instantiate the mutation
theorems. -/
def sampleBody : List ASTNode := [.command "a" [] [], .command "b" [] []]

/-- A concrete root tree over `sampleBody`. -/
def sampleRoot : ASTNode := .program sampleBody

/-- The path `walkAST` captures for the second command of
`sampleRoot`. -/
def samplePath : List PathItem := [⟨.command "b" [] [], 1⟩]

/-! ### Helper lemmas -/

theorem getBody_setBody {n : ASTNode} {b : List ASTNode} (h : getBody n = some b)
    (l : List ASTNode) : getBody (setBody n l) = some l := by
  cases n <;> simp_all [getBody, setBody]

theorem setBody_setBody (n : ASTNode) (a b : List ASTNode) :
    setBody (setBody n a) b = setBody n b := by
  cases n <;> simp [setBody]

/-- Resolving the same path after a body rewrite at that path lands on
the rewritten parent. -/
theorem modifyBodyAt_resolve (pp : List PathItem) (root parent : ASTNode)
    (b : List ASTNode) (f : List ASTNode → List ASTNode)
    (hres : getNodeAtPath root pp = some parent) (hbody : getBody parent = some b) :
    getNodeAtPath (modifyBodyAt root pp f) pp = some (setBody parent (f b)) := by
  induction pp generalizing root with
  | nil =>
      simp only [getNodeAtPath] at hres
      cases hres
      simp [modifyBodyAt, hbody, getNodeAtPath]
  | cons p rest ih =>
      simp only [getNodeAtPath] at hres
      cases hb : getBody root with
      | none => simp [hb] at hres
      | some b0 =>
          cases hc : b0[p.index]? with
          | none => simp [hb, hc] at hres
          | some child =>
              simp only [hb, hc] at hres
              have hlt : p.index < b0.length := (List.getElem?_eq_some_iff.mp hc).1
              simp only [modifyBodyAt, hb, hc, getNodeAtPath,
                getBody_setBody hb, List.getElem?_set_self hlt]
              exact ih child hres

/-- Rewriting the body at a path twice composes the rewrites. -/
theorem modifyBodyAt_comp (pp : List PathItem) (root : ASTNode)
    (f g : List ASTNode → List ASTNode) :
    modifyBodyAt (modifyBodyAt root pp f) pp g =
      modifyBodyAt root pp (fun b => g (f b)) := by
  induction pp generalizing root with
  | nil =>
      cases hb : getBody root with
      | none => simp [modifyBodyAt, hb]
      | some b => simp [modifyBodyAt, hb, getBody_setBody hb, setBody_setBody]
  | cons p rest ih =>
      cases hb : getBody root with
      | none => simp [modifyBodyAt, hb]
      | some b0 =>
          cases hc : b0[p.index]? with
          | none => simp [modifyBodyAt, hb, hc]
          | some child =>
              have hlt : p.index < b0.length :=
                (List.getElem?_eq_some_iff.mp hc).1
              simp [modifyBodyAt, hb, hc, getBody_setBody hb,
                List.getElem?_set_self hlt, setBody_setBody, List.set_set, ih]

/-- Element at the insertion point of a splice. -/
theorem splice_self {α : Type} (b : List α) (x : α) (i : Nat) (h : i ≤ b.length) :
    (b.take i ++ x :: b.drop i)[i]? = some x := by
  rw [List.getElem?_append_right (by simp [List.length_take])]
  simp [List.length_take, Nat.min_eq_left h]

/-- Element one past the insertion point of a splice. -/
theorem splice_succ {α : Type} (b : List α) (x : α) (i : Nat) (h : i ≤ b.length) :
    (b.take i ++ x :: b.drop i)[i + 1]? = b[i]? := by
  rw [List.getElem?_append_right (by simp [List.length_take])]
  have hm : i ⊓ b.length = i := Nat.min_eq_left h
  simp [List.length_take, hm, List.getElem?_drop]

/-- Elements strictly before the insertion point of a splice. -/
theorem splice_lt {α : Type} (b : List α) (x : α) (i j : Nat) (h : j < i)
    (h2 : i ≤ b.length) :
    (b.take i ++ x :: b.drop i)[j]? = b[j]? := by
  rw [List.getElem?_append_left (by simp [List.length_take]; omega)]
  simp [List.getElem?_take, h]

/-- `arraysEqual` on two argument arrays decides exactly list equality:
same length and pairwise equal elements. -/
theorem arraysEqual_strList_iff (a b : List String) :
    arraysEqual (.strListV a) (.strListV b) = true ↔ a = b := by
  induction a generalizing b with
  | nil => cases b <;> simp [arraysEqual]
  | cons x xs ih =>
      cases b with
      | nil => simp [arraysEqual]
      | cons y ys =>
          have h2 := ih ys
          simp only [arraysEqual, List.zip_cons_cons, List.all_cons, List.length_cons,
            Bool.and_eq_true, beq_iff_eq] at h2 ⊢
          constructor
          · rintro ⟨hl, hx, hall⟩
            exact List.cons_eq_cons.mpr ⟨hx, h2.mp ⟨by omega, hall⟩⟩
          · intro h
            obtain ⟨hx, hxs⟩ := List.cons_eq_cons.mp h
            obtain ⟨hl, hall⟩ := h2.mpr hxs
            exact ⟨by omega, hx, hall⟩

mutual
/-- Projecting the nodes out of the `walkAST` visit sequence gives the
body-only pre-order sequence, for every starting path. -/
theorem walkAST_map_fst (n : ASTNode) (path : List PathItem) :
    (walkAST n path).map Prod.fst = preorderBody n := by
  cases n with
  | program b =>
      simp only [walkAST, preorderBody, List.map_cons]
      rw [walkASTList_map_fst b path 0]
  | loop k v c b =>
      simp only [walkAST, preorderBody, List.map_cons]
      rw [walkASTList_map_fst b path 0]
  | functionDef nm ps b =>
      simp only [walkAST, preorderBody, List.map_cons]
      rw [walkASTList_map_fst b path 0]
  | subshell b =>
      simp only [walkAST, preorderBody, List.map_cons]
      rw [walkASTList_map_fst b path 0]
  | command nm args rs => simp [walkAST, preorderBody]
  | variableNode nm vl ex ro => simp [walkAST, preorderBody]
  | conditional c cons alt => simp [walkAST, preorderBody]
  | pipeline cmds ng => simp [walkAST, preorderBody]
  | redirect op tg fd => simp [walkAST, preorderBody]
  | comment vl k => simp [walkAST, preorderBody]
  | unknown tag => simp [walkAST, preorderBody]

theorem walkASTList_map_fst (l : List ASTNode) (path : List PathItem) (i : Nat) :
    (walkASTList l path i).map Prod.fst = preorderBodyList l := by
  cases l with
  | nil => simp [walkASTList, preorderBodyList]
  | cons c cs =>
      simp only [walkASTList, preorderBodyList, List.map_append]
      rw [walkAST_map_fst c, walkASTList_map_fst cs path (i + 1)]
end

/-- Filtering on the node component commutes with projecting the node
out of each handle. -/
theorem filter_map_fst (l : List (ASTNode × List PathItem)) (q : ASTNode → Bool) :
    (l.filter fun np => q np.1).map Prod.fst = (l.map Prod.fst).filter q := by
  induction l with
  | nil => rfl
  | cons a t ih =>
      by_cases h : q a.1 = true
      · simp [List.filter_cons, h, ih]
      · simp only [List.filter_cons, List.map_cons]
        rw [if_neg (by simp [h]), if_neg (by simp [h])]
        exact ih

/-! ### Claim theorems -/

/-- C1 (counterexample): a `Command` nested in a `Conditional`'s
`consequent` is reachable through the spec's modeled child-sequence
fields and has the requested kind, yet `find(Command, {})` returns the
empty collection — the implemented walk never enters `consequent`. -/
theorem find_misses_consequent_counterexample :
    ASTNode.command "x" [] [] ∈
        specPreorder (.program [.conditional "c" [.command "x" [] []] none]) ∧
    typeOf (ASTNode.command "x" [] []) = "Command" ∧
    findNodes (.program [.conditional "c" [.command "x" [] []] none]) "Command" [] = [] := by
  refine ⟨?_, rfl, ?_⟩
  · simp [specPreorder, specPreorderList]
  · simp [findNodes, walkAST, walkASTList, typeOf, matchesFilter]

/-- C1 (amended): for every canonical tree and every query
`find(K, {})`, the returned collection contains exactly the nodes of
kind K reachable from the root via the `body` child-sequence field
alone, in pre-order depth-first discovery order; child sequences stored
under `consequent`/`alternate`, `commands` or `redirects` are not
traversed. -/
theorem find_visits_body_preorder (ast : ASTNode) (K : String) :
    (findNodes ast K []).map Prod.fst =
      (preorderBody ast).filter fun n => typeOf n == K := by
  rw [findNodes,
    List.filter_congr (fun x _ => by simp [matchesFilter] :
      ∀ x ∈ walkAST ast [], (typeOf x.1 == K && matchesFilter x.1 []) = (typeOf x.1 == K)),
    filter_map_fst (walkAST ast []) (fun n => typeOf n == K), walkAST_map_fst]

/-- C2: the empty filter matches every visited node; the `arguments` key
with an array value matches exactly when the node's argument sequence
equals the filter's sequence element-wise (same length, same order, same
values); any other key matches by strict equality of `node[key]` with
the filter value. -/
theorem filter_matching_semantics (node : ASTNode) (nm : String)
    (args A : List String) (rs : List ASTNode) (k : String) (v : JSValue)
    (hk : k ≠ "arguments") :
    matchesFilter node [] = true ∧
    (matchesFilter (.command nm args rs) [("arguments", .strListV A)] = true ↔ args = A) ∧
    matchesFilter node [(k, v)] = jsStrictEq (getField node k) v := by
  have hk' : (k == "arguments") = false := beq_eq_false_iff_ne.mpr hk
  refine ⟨rfl, ?_, ?_⟩
  · simp [matchesFilter, getField, isArrayV, arraysEqual_strList_iff]
  · simp only [matchesFilter, List.all_cons, List.all_nil, Bool.and_true]
    rw [hk']
    simp

theorem filter_matching_semantics_witness :
    matchesFilter (.command "npm" ["install"] []) [] = true ∧
    (matchesFilter (.command "git" ["checkout"] [])
        [("arguments", .strListV ["checkout"])] = true ↔
      (["checkout"] : List String) = ["checkout"]) ∧
    matchesFilter (.command "npm" ["install"] []) [("name", .strV "npm")] =
      jsStrictEq (getField (.command "npm" ["install"] []) "name") (.strV "npm") :=
  filter_matching_semantics (.command "npm" ["install"] []) "git" ["checkout"]
    ["checkout"] [] "name" (.strV "npm") (by decide)

/-- C3: on a handle whose captured path has length zero (the root
`Program` node), each of `replace`, `insertBefore`, `insertAfter`,
`remove` and `prune` returns the tree unchanged; the functions are total,
so nothing is raised. -/
theorem empty_path_mutators_noop (root newNode : ASTNode) (path : List PathItem)
    (h : path.length = 0) :
    replaceNode root path newNode = root ∧
    insertBeforeNode root path newNode = root ∧
    insertAfterNode root path newNode = root ∧
    removeNode root path = root ∧
    pruneNode root path = root := by
  have hp : path = [] := List.length_eq_zero.mp h
  subst hp
  exact ⟨rfl, rfl, rfl, rfl, rfl⟩

theorem empty_path_mutators_noop_witness :
    replaceNode (.program [.command "ls" [] []]) [] (.command "pwd" [] []) =
        .program [.command "ls" [] []] ∧
    insertBeforeNode (.program [.command "ls" [] []]) [] (.command "pwd" [] []) =
        .program [.command "ls" [] []] ∧
    insertAfterNode (.program [.command "ls" [] []]) [] (.command "pwd" [] []) =
        .program [.command "ls" [] []] ∧
    removeNode (.program [.command "ls" [] []]) [] = .program [.command "ls" [] []] ∧
    pruneNode (.program [.command "ls" [] []]) [] = .program [.command "ls" [] []] :=
  empty_path_mutators_noop (.program [.command "ls" [] []]) (.command "pwd" [] []) [] rfl

/-- C4: on a handle whose captured path resolves to a parent with a
child sequence and whose final index i addresses an element of it,
`insertBefore(X)` splices X at index i — afterwards X occupies index i,
the previously-addressed element occupies index i+1, and every element
before i is unchanged — and `insertAfter(X)` splices X immediately after
index i, leaving indices up to i unchanged. -/
theorem insert_splices_at_index (root parent X : ASTNode)
    (path : List PathItem) (lp : PathItem) (b : List ASTNode)
    (hlast : path.getLast? = some lp)
    (hres : getNodeAtPath root path.dropLast = some parent)
    (hbody : getBody parent = some b)
    (hi : lp.index < b.length) :
    (getNodeAtPath (insertBeforeNode root path X) path.dropLast =
        some (setBody parent (b.take lp.index ++ X :: b.drop lp.index)) ∧
      (b.take lp.index ++ X :: b.drop lp.index)[lp.index]? = some X ∧
      (b.take lp.index ++ X :: b.drop lp.index)[lp.index + 1]? = b[lp.index]? ∧
      ∀ j, j < lp.index → (b.take lp.index ++ X :: b.drop lp.index)[j]? = b[j]?) ∧
    (getNodeAtPath (insertAfterNode root path X) path.dropLast =
        some (setBody parent (b.take (lp.index + 1) ++ X :: b.drop (lp.index + 1))) ∧
      (b.take (lp.index + 1) ++ X :: b.drop (lp.index + 1))[lp.index + 1]? = some X ∧
      ∀ j, j ≤ lp.index →
        (b.take (lp.index + 1) ++ X :: b.drop (lp.index + 1))[j]? = b[j]?) := by
  have hle : lp.index ≤ b.length := Nat.le_of_lt hi
  have hle1 : lp.index + 1 ≤ b.length := hi
  refine ⟨⟨?_, splice_self b X lp.index hle, splice_succ b X lp.index hle, ?_⟩,
          ?_, splice_self b X (lp.index + 1) hle1, ?_⟩
  · simp only [insertBeforeNode, hlast]
    exact modifyBodyAt_resolve _ root parent b _ hres hbody
  · intro j hj
    exact splice_lt b X lp.index j hj hle
  · simp only [insertAfterNode, hlast]
    exact modifyBodyAt_resolve _ root parent b _ hres hbody
  · intro j hj
    exact splice_lt b X (lp.index + 1) j (Nat.lt_succ_of_le hj) hle1

theorem insert_splices_at_index_witness :
    (getNodeAtPath (insertBeforeNode sampleRoot samplePath (.command "X" [] []))
          samplePath.dropLast =
        some (setBody sampleRoot
          (sampleBody.take 1 ++ ASTNode.command "X" [] [] :: sampleBody.drop 1)) ∧
      (sampleBody.take 1 ++ ASTNode.command "X" [] [] :: sampleBody.drop 1)[1]? =
        some (.command "X" [] []) ∧
      (sampleBody.take 1 ++ ASTNode.command "X" [] [] :: sampleBody.drop 1)[2]? =
        sampleBody[1]? ∧
      ∀ j, j < 1 →
        (sampleBody.take 1 ++ ASTNode.command "X" [] [] :: sampleBody.drop 1)[j]? =
          sampleBody[j]?) ∧
    (getNodeAtPath (insertAfterNode sampleRoot samplePath (.command "X" [] []))
          samplePath.dropLast =
        some (setBody sampleRoot
          (sampleBody.take 2 ++ ASTNode.command "X" [] [] :: sampleBody.drop 2)) ∧
      (sampleBody.take 2 ++ ASTNode.command "X" [] [] :: sampleBody.drop 2)[2]? =
        some (.command "X" [] []) ∧
      ∀ j, j ≤ 1 →
        (sampleBody.take 2 ++ ASTNode.command "X" [] [] :: sampleBody.drop 2)[j]? =
          sampleBody[j]?) :=
  insert_splices_at_index sampleRoot sampleRoot (.command "X" [] []) samplePath
    ⟨.command "b" [] [], 1⟩ sampleBody
    (by simp [samplePath]) (by simp [samplePath, getNodeAtPath])
    (by simp [sampleRoot, getBody]) (by simp [sampleBody])

/-- C5: `replace(N)` on a handle at a resolvable path overwrites exactly
the element the path resolves to — the parent's child sequence becomes
the old sequence with only the final index overwritten, every other
index unchanged — and replacing twice with N1 then N2 yields the same
tree as replacing once with N2, leaving only N2 at that position. -/
theorem replace_overwrites_exactly (root parent N1 N2 : ASTNode)
    (path : List PathItem) (lp : PathItem) (b : List ASTNode)
    (hlast : path.getLast? = some lp)
    (hres : getNodeAtPath root path.dropLast = some parent)
    (hbody : getBody parent = some b)
    (hi : lp.index < b.length) :
    (getNodeAtPath (replaceNode root path N1) path.dropLast =
        some (setBody parent (b.set lp.index N1)) ∧
      getBody (setBody parent (b.set lp.index N1)) = some (b.set lp.index N1) ∧
      (b.set lp.index N1)[lp.index]? = some N1 ∧
      ∀ j, j ≠ lp.index → (b.set lp.index N1)[j]? = b[j]?) ∧
    replaceNode (replaceNode root path N1) path N2 = replaceNode root path N2 := by
  refine ⟨⟨?_, getBody_setBody hbody _, List.getElem?_set_self hi, ?_⟩, ?_⟩
  · simp only [replaceNode, hlast]
    exact modifyBodyAt_resolve _ root parent b _ hres hbody
  · intro j hj
    exact List.getElem?_set_ne (fun h => hj h.symm)
  · simp only [replaceNode, hlast, modifyBodyAt_comp, List.set_set]

theorem replace_overwrites_exactly_witness :
    (getNodeAtPath (replaceNode sampleRoot samplePath (.command "X" [] []))
          samplePath.dropLast =
        some (setBody sampleRoot (sampleBody.set 1 (.command "X" [] []))) ∧
      getBody (setBody sampleRoot (sampleBody.set 1 (.command "X" [] []))) =
        some (sampleBody.set 1 (.command "X" [] [])) ∧
      (sampleBody.set 1 (.command "X" [] []))[1]? = some (.command "X" [] []) ∧
      ∀ j, j ≠ 1 → (sampleBody.set 1 (.command "X" [] []))[j]? = sampleBody[j]?) ∧
    replaceNode (replaceNode sampleRoot samplePath (.command "X" [] [])) samplePath
        (.command "Y" [] []) =
      replaceNode sampleRoot samplePath (.command "Y" [] []) :=
  replace_overwrites_exactly sampleRoot sampleRoot (.command "X" [] [])
    (.command "Y" [] []) samplePath ⟨.command "b" [] [], 1⟩ sampleBody
    (by simp [samplePath]) (by simp [samplePath, getNodeAtPath])
    (by simp [sampleRoot, getBody]) (by simp [sampleBody])

/-- C6: `prune` performs exactly what `remove` performs, on every tree
and every handle; no additional structural cleanup happens. -/
theorem prune_equals_remove :
    ∀ (root : ASTNode) (path : List PathItem), pruneNode root path = removeNode root path :=
  fun _ _ => rfl

/-- C7: the generator renders any node whose kind is outside the known
switch cases as the empty string (and raises nothing, being total), and
renders a `Comment` as `# ` followed by its value for the `line` and the
`block` kind alike. -/
theorem unknown_renders_empty_comment_renders_value
    (tag value : String) (options : SourceOptions) :
    astToSource (.unknown tag) options = "" ∧
    astToSource (.comment value "line") options = "# " ++ value ∧
    astToSource (.comment value "block") options = "# " ++ value := by
  refine ⟨?_, ?_, ?_⟩ <;> simp [astToSource]

/-- C8: a `Variable` node renders as its optional prefixes followed by
`name=value`; the export flag is tested first, the readonly flag second,
each prepending its keyword, so export-only renders `export name=value`
and readonly-only renders `readonly name=value` (and both flags render
`readonly export name=value`). -/
theorem variable_renders_prefixes (name value : String)
    (exportFlag readonlyFlag : Bool) (options : SourceOptions) :
    astToSource (.variableNode name value exportFlag readonlyFlag) options =
      (if readonlyFlag then "readonly " else "") ++
        ((if exportFlag then "export " else "") ++ (name ++ ("=" ++ value))) ∧
    astToSource (.variableNode name value true false) options =
      "export " ++ (name ++ ("=" ++ value)) ∧
    astToSource (.variableNode name value false true) options =
      "readonly " ++ (name ++ ("=" ++ value)) := by
  refine ⟨?_, ?_, ?_⟩ <;>
    cases exportFlag <;> cases readonlyFlag <;>
      simp [astToSource, String.append_assoc]

/-- C10: a `Loop` node whose `kind` is `until` — a declared loop kind of
the node model — falls through both rendering branches and reaches the
trailing `return ''`, so it generates the empty string. -/
theorem until_loop_renders_empty (loopVar condition : Option String)
    (body : List ASTNode) (options : SourceOptions) :
    astToSource (.loop "until" loopVar condition body) options = "" := by
  simp [astToSource]

/-- C9: whenever the external parser raises, `BashParser.parse` fails
with a single error whose message carries the parser's original message,
and returns no (partial or other) canonical tree to the caller. -/
theorem parse_propagates_parser_failure
    (parseBash : String → ParserOptions → Except String RawAST)
    (options : ParserOptions) (source msg : String)
    (h : parseBash source options = .error msg) :
    parse parseBash options source = .error ("Failed to parse bash source: " ++ msg) ∧
    isOkResult (parse parseBash options source) = false := by
  refine ⟨?_, ?_⟩ <;> simp [parse, h, isOkResult]

theorem parse_propagates_parser_failure_witness :
    parse (fun _ _ => .error "unexpected token") {} "if [" =
        .error ("Failed to parse bash source: " ++ "unexpected token") ∧
    isOkResult (parse (fun _ _ => .error "unexpected token") {} "if [") = false :=
  parse_propagates_parser_failure (fun _ _ => .error "unexpected token") {}
    "if [" "unexpected token" rfl

end BashCodeshift
